import Mathlib

/-!
Shallow embedding of `scan_network.py` (rjsears/simple_network_scanner)
and proofs about it.

Python strings are modelled as `List Char`; Python's unbounded `int` as
`Int` (or `Nat` where the source value is provably non-negative); a Python
function that can raise an exception is modelled as returning `Option`;
the external ping / reverse-DNS services are modelled as explicit oracle
arguments.
-/

namespace ScanNetwork

/-- Models Python's `str.split(".")`: split at every dot, keeping empty
pieces, so the result is always non-empty. -/
def splitDot : List Char → List (List Char)
  | [] => [[]]
  | c :: rest =>
    if c = '.' then [] :: splitDot rest
    else
      match splitDot rest with
      | [] => [[c]]
      | p :: ps => (c :: p) :: ps

/-- Numeric value of a decimal digit (`none` on a non-digit). -/
def digitVal (c : Char) : Option Nat :=
  if c.isDigit then some (c.toNat - 48) else none

/-- Accumulator loop for `parseDigits`. -/
def parseDigitsAux : List Char → Nat → Option Nat
  | [], acc => some acc
  | c :: rest, acc =>
    match digitVal c with
    | some d => parseDigitsAux rest (acc * 10 + d)
    | none => none

/-- Parses a non-empty all-digit string as a natural number. -/
def parseDigits : List Char → Option Nat
  | [] => none
  | cs => parseDigitsAux cs 0

/-- Models Python's `int(s)` on the forms that occur in this program: an
optional sign followed by one or more decimal digits; `none` models the
`ValueError` raised on anything else.  (Python's `int` additionally strips
surrounding whitespace and accepts underscore digit grouping; no claim
considered here depends on those forms.) -/
def pyInt : List Char → Option Int
  | '-' :: rest => (parseDigits rest).map (fun n => -(n : Int))
  | '+' :: rest => (parseDigits rest).map (fun n => (n : Int))
  | cs => (parseDigits cs).map (fun n => (n : Int))

/-- Embedding of `ip_to_int` (scan_network.py, lines 94-97):
`parts = ip.split(".")` followed by
`(int(parts[0]) << 24) + (int(parts[1]) << 16) + (int(parts[2]) << 8) + int(parts[3])`.
`none` models the `IndexError` (fewer than four parts) or `ValueError`
(a part `int` cannot parse) that the Python code raises; parts beyond the
fourth are ignored, exactly as in the source. -/
def ip_to_int (ip : List Char) : Option Int :=
  match splitDot ip with
  | p0 :: p1 :: p2 :: p3 :: _ =>
    match pyInt p0, pyInt p1, pyInt p2, pyInt p3 with
    | some a, some b, some c, some d =>
      some (a * 2 ^ 24 + b * 2 ^ 16 + c * 2 ^ 8 + d)
    | _, _, _, _ => none
  | _ => none

/-- Embedding of `int_to_ip` (lines 100-102):
`f"{(num >> 24) & 255}.{(num >> 16) & 255}.{(num >> 8) & 255}.{num & 255}"`.
The function is only ever applied to the loop counter of
`generate_ip_list`, which is non-negative, hence the `Nat` domain. -/
def int_to_ip (num : Nat) : List Char :=
  (toString (num >>> 24 &&& 255)).toList ++
    ('.' :: ((toString (num >>> 16 &&& 255)).toList ++
      ('.' :: ((toString (num >>> 8 &&& 255)).toList ++
        ('.' :: (toString (num &&& 255)).toList)))))

/-- Embedding of `get_ip_type` (lines 105-122).  `cidr` is guaranteed to
lie in `[8, 32]` by the input validation in `get_user_input`, so the
Python expression `2 ** (32 - cidr)` is a positive integer power and
agrees with the truncated `Nat` subtraction used here. -/
def get_ip_type (ip_int : Nat) (cidr : Nat) : String :=
  let block_size := 2 ^ (32 - cidr)
  let network := ip_int / block_size * block_size
  let broadcast := network + block_size - 1
  if 31 ≤ cidr then "HOST"
  else if ip_int = network then "NTWRK"
  else if ip_int = broadcast then "BCAST"
  else "HOST"

/-- An element of the list built by `generate_ip_list`: the dict
`{"ip": ..., "type": ...}`. -/
structure IPEntry where
  ip : List Char
  type : String
deriving DecidableEq, Repr

/-- The `while hosts_found < num_hosts` loop of `generate_ip_list`
(lines 136-151), with an explicit fuel argument making the recursion
structural.  Each pass increments `current_ip` and the loop breaks as
soon as `current_ip > 0xFFFFFFFF`, so it makes at most
`2 ^ 32 + 1 - current_ip` passes; any fuel at least that large (in
particular the `2 ^ 32 + 1` used by `generate_ip_list`) makes this
function agree with the unbounded Python loop. -/
def genLoop : Nat → Nat → Nat → Nat → Nat → List IPEntry
  | 0, _, _, _, _ => []
  | fuel + 1, num_hosts, cidr, current_ip, hosts_found =>
    if hosts_found < num_hosts then
      if current_ip > 0xFFFFFFFF then []
      else
        let t := get_ip_type current_ip cidr
        let hosts' := if t = "HOST" then hosts_found + 1 else hosts_found
        ⟨int_to_ip current_ip, t⟩ :: genLoop fuel num_hosts cidr (current_ip + 1) hosts'
    else []

/-- Embedding of `generate_ip_list` (lines 125-153).  The source also
binds a local `block_size` that it never uses; it is omitted.  `none`
models the exception `ip_to_int` raises on a malformed `start_ip`; the
program only reaches this call with a validated dotted quad, for which
`ip_to_int` returns a value in `[0, 2^32)` and `Int.toNat` is exact. -/
def generate_ip_list (start_ip : List Char) (num_hosts : Nat) (cidr : Nat) :
    Option (List IPEntry) :=
  (ip_to_int start_ip).map fun s => genLoop (2 ^ 32 + 1) num_hosts cidr s.toNat 0

/-- The starting-IP validation performed by `get_user_input`
(lines 162-186): exactly four dot-separated parts, each parsed by
Python's `int` to a value in `[0, 255]`. -/
def valid_ip (s : List Char) : Bool :=
  let parts := splitDot s
  parts.length == 4 &&
    parts.all fun p =>
      match pyInt p with
      | some n => decide (0 ≤ n) && decide (n ≤ 255)
      | none => false

/-- Number of HOST-classified addresses in `[s, 2^32)`: the hosts
available to the enumeration walk before the overflow guard stops it. -/
def hostsAvailable (s : Nat) (cidr : Nat) : Nat :=
  (List.range' s (2 ^ 32 - s)).countP fun a => get_ip_type a cidr == "HOST"

/-- The entry `generate_ip_list` appends for address `a`. -/
def mkEntry (cidr : Nat) (a : Nat) : IPEntry :=
  { ip := int_to_ip a, type := get_ip_type a cidr }

/-- Entry `e1` carries a strictly smaller address value than `e2`
(both addresses parse back through `ip_to_int`). -/
def addrLt (e1 e2 : IPEntry) : Prop :=
  ∃ x y : Int, ip_to_int e1.ip = some x ∧ ip_to_int e2.ip = some y ∧ x < y

/-- Outcome of the external `subprocess.run(["ping", ...])` call made by
`ping_host`: the process completed with some return code, or the call
raised an exception. -/
inductive PingOutcome where
  | completed (returncode : Int)
  | raised
deriving DecidableEq

/-- Outcome of the external `socket.gethostbyaddr` call made by
`get_hostname`: a resolved hostname, a `socket.herror`, or any other
exception. -/
inductive DnsOutcome where
  | resolved (hostname : String)
  | herror
  | raised
deriving DecidableEq

/-- Embedding of `ping_host` (lines 33-43): `True` exactly when the ping
subprocess completed with return code 0; every exception is caught and
collapsed to `False`. -/
def ping_host (outcome : PingOutcome) : Bool :=
  match outcome with
  | .completed returncode => returncode == 0
  | .raised => false

/-- Embedding of `get_hostname` (lines 46-54): the resolved name, with
both `socket.herror` and any other exception collapsed to `"-"`. -/
def get_hostname (outcome : DnsOutcome) : String :=
  match outcome with
  | .resolved hostname => hostname
  | .herror => "-"
  | .raised => "-"

/-- The dict returned by `scan_host` (lines 57-76). -/
structure ProbeResult where
  ip : List Char
  status : String
  hostname : String
deriving DecidableEq, Repr

/-- Embedding of `scan_host` (lines 57-76), parameterised by oracles
giving the outcome of the external ping and reverse-DNS services for
each address. -/
def scan_host (pingO : List Char → PingOutcome) (dnsO : List Char → DnsOutcome)
    (ip_info : IPEntry) : ProbeResult :=
  if ip_info.type = "NTWRK" ∨ ip_info.type = "BCAST" then
    { ip := ip_info.ip, status := ip_info.type, hostname := "-" }
  else
    let hostname := get_hostname (dnsO ip_info.ip)
    let is_up := ping_host (pingO ip_info.ip)
    { ip := ip_info.ip, status := if is_up then "UP" else "DOWN", hostname := hostname }

/-- The sort key `[int(p) for p in x["ip"].split(".")]` used by `main`
(line 334).  Python's `int` raises on an unparseable part; every address
string reaching the sort was produced by `int_to_ip`, for which all four
parts parse, so the `getD 0` default is never exercised by the program. -/
def ipKey (ip : List Char) : List Int :=
  (splitDot ip).map fun p => (pyInt p).getD 0

/-- Python's `<=` on integer lists: lexicographic order, the order
`list.sort` realises when the keys are lists. -/
def lexLe : List Int → List Int → Bool
  | [], _ => true
  | _ :: _, [] => false
  | x :: xs, y :: ys => if x < y then true else if y < x then false else lexLe xs ys

/-- The result sort in `main` (line 334):
`results.sort(key=lambda x: [int(p) for p in x["ip"].split(".")])`, a
stable sort ascending in the lexicographic order of the octet lists. -/
def sortResults (results : List ProbeResult) : List ProbeResult :=
  results.mergeSort fun r1 r2 => lexLe (ipKey r1.ip) (ipKey r2.ip)

/-- Result `r1` carries a strictly smaller address value than `r2`. -/
def resLt (r1 r2 : ProbeResult) : Prop :=
  ∃ x y : Int, ip_to_int r1.ip = some x ∧ ip_to_int r2.ip = some y ∧ x < y

/-- Canonical decimal numeral of a value in `[0, 255]` (no sign, no
leading zeros): the octet form `int_to_ip` produces. -/
def canonOctet (p : List Char) : Bool :=
  match parseDigits p with
  | some n => decide (n ≤ 255) && (toString n).toList == p
  | none => false

/-- Canonical dotted quad: exactly four dot-separated canonical octets —
the textual form produced by `int_to_ip`. -/
def isCanonicalQuad (s : List Char) : Bool :=
  match splitDot s with
  | [p0, p1, p2, p3] => canonOctet p0 && canonOctet p1 && canonOctet p2 && canonOctet p3
  | _ => false


/-- Inverse of `splitDot`: interpose a dot between the pieces. -/
def joinDot : List (List Char) → List Char
  | [] => []
  | [x] => x
  | x :: xs => x ++ '.' :: joinDot xs

lemma splitDot_ne_nil (s : List Char) : splitDot s ≠ [] := by
  induction s with
  | nil => simp [splitDot]
  | cons c rest ih =>
    simp only [splitDot]
    by_cases hc : c = '.'
    · simp [hc]
    · simp only [if_neg hc]
      cases h : splitDot rest <;> simp

lemma splitDot_append (x y : List Char) (hx : '.' ∉ x) :
    splitDot (x ++ '.' :: y) = x :: splitDot y := by
  induction x with
  | nil => simp [splitDot]
  | cons c x' ih =>
    have hc : c ≠ '.' := fun h => hx (by simp [h])
    have hx' : '.' ∉ x' := fun h => hx (List.mem_cons_of_mem _ h)
    have ih' := ih hx'
    simp only [List.cons_append, splitDot, if_neg hc]
    rw [show x'.append ('.' :: y) = x' ++ '.' :: y from rfl, ih']

lemma splitDot_no_dot (x : List Char) (hx : '.' ∉ x) : splitDot x = [x] := by
  induction x with
  | nil => rfl
  | cons c x' ih =>
    have hc : c ≠ '.' := fun h => hx (by simp [h])
    have hx' : '.' ∉ x' := fun h => hx (List.mem_cons_of_mem _ h)
    simp only [splitDot, if_neg hc, ih hx']

lemma joinDot_splitDot (s : List Char) : joinDot (splitDot s) = s := by
  induction s with
  | nil => rfl
  | cons c s' ih =>
    by_cases hc : c = '.'
    · subst hc
      simp only [splitDot, if_pos rfl]
      cases h : splitDot s' with
      | nil => exact absurd h (splitDot_ne_nil s')
      | cons p ps =>
        rw [h] at ih
        simp only [joinDot, List.nil_append]
        rw [ih]
    · simp only [splitDot, if_neg hc]
      cases h : splitDot s' with
      | nil => exact absurd h (splitDot_ne_nil s')
      | cons p ps =>
        rw [h] at ih
        cases ps with
        | nil =>
          simp only [joinDot] at ih ⊢
          rw [ih]
        | cons q qs =>
          simp only [joinDot] at ih ⊢
          rw [List.cons_append, ih]

set_option maxRecDepth 20000 in
lemma pyInt_toString_octet : ∀ n, n ≤ 255 → pyInt (toString n).toList = some ((n : Nat) : Int) := by
  decide

set_option maxRecDepth 20000 in
lemma dot_not_mem_toString_octet : ∀ n, n ≤ 255 → '.' ∉ (toString n).toList := by
  decide

set_option maxRecDepth 20000 in
lemma parseDigits_toString_octet : ∀ n, n ≤ 255 → parseDigits (toString n).toList = some n := by
  decide

lemma int_to_ip_eq (num : Nat) :
    int_to_ip num =
      (toString (num / 16777216 % 256)).toList ++
        ('.' :: ((toString (num / 65536 % 256)).toList ++
          ('.' :: ((toString (num / 256 % 256)).toList ++
            ('.' :: (toString (num % 256)).toList))))) := by
  unfold int_to_ip
  have h255 : (255 : Nat) = 2 ^ 8 - 1 := rfl
  simp only [h255, Nat.and_pow_two_sub_one_eq_mod, Nat.shiftRight_eq_div_pow]

lemma ip_to_int_int_to_ip (a : Nat) (ha : a < 2 ^ 32) :
    ip_to_int (int_to_ip a) = some ((a : Nat) : Int) := by
  have h0 : a / 16777216 % 256 ≤ 255 := by omega
  have h1 : a / 65536 % 256 ≤ 255 := by omega
  have h2 : a / 256 % 256 ≤ 255 := by omega
  have h3 : a % 256 ≤ 255 := by omega
  rw [int_to_ip_eq]
  unfold ip_to_int
  rw [splitDot_append _ _ (dot_not_mem_toString_octet _ h0),
    splitDot_append _ _ (dot_not_mem_toString_octet _ h1),
    splitDot_append _ _ (dot_not_mem_toString_octet _ h2),
    splitDot_no_dot _ (dot_not_mem_toString_octet _ h3)]
  simp only [pyInt_toString_octet _ h0, pyInt_toString_octet _ h1,
    pyInt_toString_octet _ h2, pyInt_toString_octet _ h3]
  congr 1
  push_cast
  have hlt : a < 4294967296 := by omega
  omega

lemma canonOctet_spec (p : List Char) (h : canonOctet p = true) :
    ∃ n, n ≤ 255 ∧ p = (toString n).toList := by
  unfold canonOctet at h
  rcases hp : parseDigits p with _ | n <;> rw [hp] at h
  · simp at h
  · simp only [Bool.and_eq_true, decide_eq_true_eq, beq_iff_eq] at h
    exact ⟨n, h.1, h.2.symm⟩

lemma isCanonicalQuad_spec (s : List Char) (hs : isCanonicalQuad s = true) :
    ∃ p0 p1 p2 p3, splitDot s = [p0, p1, p2, p3] ∧ canonOctet p0 = true ∧
      canonOctet p1 = true ∧ canonOctet p2 = true ∧ canonOctet p3 = true := by
  unfold isCanonicalQuad at hs
  rcases h : splitDot s with _ | ⟨p0, _ | ⟨p1, _ | ⟨p2, _ | ⟨p3, _ | ⟨p4, rest⟩⟩⟩⟩⟩ <;>
    rw [h] at hs
  · exact Bool.noConfusion hs
  · exact Bool.noConfusion hs
  · exact Bool.noConfusion hs
  · exact Bool.noConfusion hs
  · have hs' : (((canonOctet p0 && canonOctet p1) && canonOctet p2) && canonOctet p3) = true := hs
    simp only [Bool.and_eq_true] at hs'
    exact ⟨p0, p1, p2, p3, rfl, hs'.1.1.1, hs'.1.1.2, hs'.1.2, hs'.2⟩
  · exact Bool.noConfusion hs

lemma decode_encode_canonical (s : List Char) (hs : isCanonicalQuad s = true) :
    (ip_to_int s).map (fun n => int_to_ip n.toNat) = some s := by
  obtain ⟨p0, p1, p2, p3, h, c0, c1, c2, c3⟩ := isCanonicalQuad_spec s hs
  obtain ⟨n0, hn0, hp0⟩ := canonOctet_spec _ c0
  obtain ⟨n1, hn1, hp1⟩ := canonOctet_spec _ c1
  obtain ⟨n2, hn2, hp2⟩ := canonOctet_spec _ c2
  obtain ⟨n3, hn3, hp3⟩ := canonOctet_spec _ c3
  have hjoin := joinDot_splitDot s
  rw [h] at hjoin
  simp only [joinDot] at hjoin
  unfold ip_to_int
  rw [h, hp0, hp1, hp2, hp3]
  simp only [pyInt_toString_octet _ hn0, pyInt_toString_octet _ hn1,
    pyInt_toString_octet _ hn2, pyInt_toString_octet _ hn3, Option.map_some]
  have hval : ((n0 : Int) * 2 ^ 24 + (n1 : Int) * 2 ^ 16 + (n2 : Int) * 2 ^ 8 + (n3 : Int)) =
      ((n0 * 16777216 + n1 * 65536 + n2 * 256 + n3 : Nat) : Int) := by push_cast; ring
  rw [hval]
  simp only [Option.map_some']
  rw [Int.toNat_natCast, int_to_ip_eq]
  have e0 : (n0 * 16777216 + n1 * 65536 + n2 * 256 + n3) / 16777216 % 256 = n0 := by omega
  have e1 : (n0 * 16777216 + n1 * 65536 + n2 * 256 + n3) / 65536 % 256 = n1 := by omega
  have e2 : (n0 * 16777216 + n1 * 65536 + n2 * 256 + n3) / 256 % 256 = n2 := by omega
  have e3 : (n0 * 16777216 + n1 * 65536 + n2 * 256 + n3) % 256 = n3 := by omega
  rw [e0, e1, e2, e3, ← hp0, ← hp1, ← hp2, ← hp3]
  rw [← hjoin]

lemma ip_to_int_eq_none_iff (s : List Char) :
    ip_to_int s = none ↔
      ((splitDot s).length < 4 ∨ ∃ p ∈ (splitDot s).take 4, pyInt p = none) := by
  unfold ip_to_int
  rcases h : splitDot s with _ | ⟨p0, _ | ⟨p1, _ | ⟨p2, _ | ⟨p3, rest⟩⟩⟩⟩ <;> simp
  rcases h0 : pyInt p0 with _ | n0 <;> rcases h1 : pyInt p1 with _ | n1 <;>
    rcases h2 : pyInt p2 with _ | n2 <;> rcases h3 : pyInt p3 with _ | n3 <;>
    simp [h0, h1, h2, h3]

lemma valid_ip_iff (s : List Char) :
    valid_ip s = true ↔
      ((splitDot s).length = 4 ∧
        ∀ p ∈ splitDot s, ∃ n : Int, pyInt p = some n ∧ 0 ≤ n ∧ n ≤ 255) := by
  unfold valid_ip
  simp only [Bool.and_eq_true, beq_iff_eq, List.all_eq_true]
  constructor
  · rintro ⟨h1, h2⟩
    refine ⟨h1, fun p hp => ?_⟩
    have hv := h2 p hp
    rcases hp2 : pyInt p with _ | n <;> rw [hp2] at hv
    · simp at hv
    · simp only [Bool.and_eq_true, decide_eq_true_eq] at hv
      exact ⟨n, rfl, hv.1, hv.2⟩
  · rintro ⟨h1, h2⟩
    refine ⟨h1, fun p hp => ?_⟩
    obtain ⟨n, hn, hge, hle⟩ := h2 p hp
    rw [hn]
    simp [hge, hle]

lemma valid_ip_encodes (s : List Char) (h : valid_ip s = true) :
    ∃ n : Int, ip_to_int s = some n := by
  rw [valid_ip_iff] at h
  obtain ⟨hlen, hall⟩ := h
  cases hv : ip_to_int s with
  | some n => exact ⟨n, rfl⟩
  | none =>
    rcases (ip_to_int_eq_none_iff s).mp hv with hlt | ⟨p, hp, hnone⟩
    · omega
    · obtain ⟨n, hn, -, -⟩ := hall p (List.take_subset _ _ hp)
      rw [hn] at hnone
      exact absurd hnone (by simp)

lemma hostsAvailable_zero (cur c : Nat) (hcur : 2 ^ 32 ≤ cur) : hostsAvailable cur c = 0 := by
  unfold hostsAvailable
  have h : 2 ^ 32 - cur = 0 := by omega
  rw [h]
  rfl

lemma hostsAvailable_succ (cur c : Nat) (hcur : cur ≤ 0xFFFFFFFF) :
    hostsAvailable cur c =
      (if get_ip_type cur c = "HOST" then 1 else 0) + hostsAvailable (cur + 1) c := by
  unfold hostsAvailable
  have h : 2 ^ 32 - cur = (2 ^ 32 - (cur + 1)) + 1 := by omega
  rw [h, List.range'_succ]
  by_cases ht : get_ip_type cur c = "HOST"
  · rw [List.countP_cons_of_pos _ _ (by simp [ht]), if_pos ht]
    omega
  · rw [List.countP_cons_of_neg _ _ (by simp [ht]), if_neg ht]
    omega

lemma genLoop_of_not_lt (fuel n c cur h : Nat) (hn : ¬ h < n) :
    genLoop fuel n c cur h = [] := by
  cases fuel with
  | zero => rfl
  | succ f => simp [genLoop, hn]

lemma genLoop_eq_map : ∀ fuel n c cur h, 2 ^ 32 + 1 - cur ≤ fuel →
    ∃ k, genLoop fuel n c cur h = (List.range' cur k).map (mkEntry c) ∧
      (cur ≤ 2 ^ 32 → cur + k ≤ 2 ^ 32) := by
  intro fuel
  induction fuel with
  | zero =>
    intro n c cur h hf
    exact ⟨0, rfl, by omega⟩
  | succ f ih =>
    intro n c cur h hf
    by_cases hn : h < n
    · by_cases hcur : cur > 0xFFFFFFFF
      · refine ⟨0, ?_, by omega⟩
        simp [genLoop, hn, hcur]
      · obtain ⟨k, hk, hb⟩ :=
          ih n c (cur + 1) (if get_ip_type cur c = "HOST" then h + 1 else h) (by omega)
        have hb' := hb (by omega)
        refine ⟨k + 1, ?_, by omega⟩
        simp only [genLoop, if_pos hn, if_neg hcur]
        rw [List.range'_succ, List.map_cons, hk]
        rfl
    · exact ⟨0, genLoop_of_not_lt _ _ _ _ _ hn, by omega⟩

lemma genLoop_countP : ∀ fuel n c cur h, 2 ^ 32 + 1 - cur ≤ fuel →
    (genLoop fuel n c cur h).countP (fun e => e.type == "HOST") =
      min (n - h) (hostsAvailable cur c) := by
  intro fuel
  induction fuel with
  | zero =>
    intro n c cur h hf
    have hav : hostsAvailable cur c = 0 := hostsAvailable_zero cur c (by omega)
    simp [genLoop, hav]
  | succ f ih =>
    intro n c cur h hf
    by_cases hn : h < n
    · by_cases hcur : cur > 0xFFFFFFFF
      · have hav : hostsAvailable cur c = 0 := hostsAvailable_zero cur c (by omega)
        simp [genLoop, hn, hcur, hav]
      · have hle : cur ≤ 0xFFFFFFFF := by omega
        rw [hostsAvailable_succ cur c hle]
        simp only [genLoop, if_pos hn, if_neg hcur]
        by_cases ht : get_ip_type cur c = "HOST"
        · rw [if_pos ht]
          rw [List.countP_cons_of_pos _ _ (by simp [ht]),
            ih n c (cur + 1) (h + 1) (by omega), if_pos ht]
          omega
        · rw [if_neg ht]
          rw [List.countP_cons_of_neg _ _ (by simp [ht]),
            ih n c (cur + 1) h (by omega), if_neg ht]
          omega
    · rw [genLoop_of_not_lt _ _ _ _ _ hn]
      simp
      omega

lemma genLoop_getLast : ∀ fuel n c cur h, 2 ^ 32 + 1 - cur ≤ fuel → h < n →
    n - h ≤ hostsAvailable cur c →
    ∃ e, (genLoop fuel n c cur h).getLast? = some e ∧ e.type = "HOST" := by
  intro fuel
  induction fuel with
  | zero =>
    intro n c cur h hf hn hav
    have h0 : hostsAvailable cur c = 0 := hostsAvailable_zero cur c (by omega)
    omega
  | succ f ih =>
    intro n c cur h hf hn hav
    by_cases hcur : cur > 0xFFFFFFFF
    · have h0 : hostsAvailable cur c = 0 := hostsAvailable_zero cur c (by omega)
      omega
    · have hle : cur ≤ 0xFFFFFFFF := by omega
      rw [hostsAvailable_succ cur c hle] at hav
      simp only [genLoop, if_pos hn, if_neg hcur]
      by_cases ht : get_ip_type cur c = "HOST"
      · rw [if_pos ht]
        rw [if_pos ht] at hav
        by_cases hn1 : h + 1 < n
        · obtain ⟨e, he, het⟩ := ih n c (cur + 1) (h + 1) (by omega) hn1 (by omega)
          cases hg : genLoop f n c (cur + 1) (h + 1) with
          | nil => rw [hg] at he; exact absurd he (by simp)
          | cons x xs =>
            rw [hg] at he
            refine ⟨e, ?_, het⟩
            rw [List.getLast?_cons_cons]
            exact he
        · have hstop : genLoop f n c (cur + 1) (h + 1) = [] := genLoop_of_not_lt _ _ _ _ _ hn1
          rw [hstop]
          exact ⟨⟨int_to_ip cur, get_ip_type cur c⟩, by simp, ht⟩
      · rw [if_neg ht]
        rw [if_neg ht] at hav
        obtain ⟨e, he, het⟩ := ih n c (cur + 1) h (by omega) hn (by omega)
        cases hg : genLoop f n c (cur + 1) h with
        | nil => rw [hg] at he; exact absurd he (by simp)
        | cons x xs =>
          rw [hg] at he
          refine ⟨e, ?_, het⟩
          rw [List.getLast?_cons_cons]
          exact he

lemma pow_block_ge_four (c : Nat) (hc : c ≤ 30) : 4 ≤ 2 ^ (32 - c) := by
  have h : (2 : Nat) ^ 2 ≤ 2 ^ (32 - c) := Nat.pow_le_pow_right (by norm_num) (by omega)
  simpa using h

lemma get_ip_type_char (a c : Nat) (hc : c ≤ 30) :
    get_ip_type a c =
      (if a % 2 ^ (32 - c) = 0 then "NTWRK"
       else if a % 2 ^ (32 - c) = 2 ^ (32 - c) - 1 then "BCAST" else "HOST") := by
  have hK : 4 ≤ 2 ^ (32 - c) := pow_block_ge_four c hc
  have hdm := Nat.div_add_mod a (2 ^ (32 - c))
  have hmlt : a % 2 ^ (32 - c) < 2 ^ (32 - c) := Nat.mod_lt _ (by omega)
  rw [Nat.mul_comm] at hdm
  simp only [get_ip_type]
  rw [if_neg (by omega : ¬ 31 ≤ c)]
  split_ifs <;> first | rfl | omega

/-- C2: for every address in `[0, 2^32-1]` and every `cidr` in `[8, 32]`,
`get_ip_type` returns HOST unconditionally when `cidr ≥ 31`; otherwise,
with block size `2^(32-cidr)`, it returns NTWRK exactly on the block's
network address `floor(addr/blockSize)*blockSize`, BCAST exactly on
`networkAddress + blockSize - 1`, and HOST in all other cases. -/
theorem get_ip_type_spec (a c : Nat) (ha : a ≤ 2 ^ 32 - 1) (hc8 : 8 ≤ c) (hc32 : c ≤ 32) :
    (31 ≤ c → get_ip_type a c = "HOST") ∧
    (c < 31 →
      ((get_ip_type a c = "NTWRK" ↔ a = a / 2 ^ (32 - c) * 2 ^ (32 - c)) ∧
       (get_ip_type a c = "BCAST" ↔ a = a / 2 ^ (32 - c) * 2 ^ (32 - c) + 2 ^ (32 - c) - 1) ∧
       (get_ip_type a c = "HOST" ↔
         (a ≠ a / 2 ^ (32 - c) * 2 ^ (32 - c) ∧
          a ≠ a / 2 ^ (32 - c) * 2 ^ (32 - c) + 2 ^ (32 - c) - 1)))) := by
  constructor
  · intro h31
    simp only [get_ip_type]
    rw [if_pos h31]
  · intro h31
    have hK : 4 ≤ 2 ^ (32 - c) := pow_block_ge_four c (by omega)
    have hdm := Nat.div_add_mod a (2 ^ (32 - c))
    have hmlt : a % 2 ^ (32 - c) < 2 ^ (32 - c) := Nat.mod_lt _ (by omega)
    rw [Nat.mul_comm] at hdm
    rw [get_ip_type_char a c (by omega)]
    split_ifs with h1 h2 <;>
      refine ⟨⟨fun hs => ?_, fun hx => ?_⟩, ⟨fun hs => ?_, fun hx => ?_⟩,
        ⟨fun hs => ?_, fun hx => ?_⟩⟩ <;>
      first
        | rfl
        | omega
        | exact absurd hs (by decide)

/-- C2 witness: the theorem instantiated at address 10 and prefix 24. -/
theorem get_ip_type_spec_witness :
    ((10 : Nat) ≤ 2 ^ 32 - 1 ∧ (8 : Nat) ≤ 24 ∧ (24 : Nat) ≤ 32) ∧
    ((31 ≤ 24 → get_ip_type 10 24 = "HOST") ∧
     (24 < 31 →
       ((get_ip_type 10 24 = "NTWRK" ↔ (10 : Nat) = 10 / 2 ^ (32 - 24) * 2 ^ (32 - 24)) ∧
        (get_ip_type 10 24 = "BCAST" ↔
          (10 : Nat) = 10 / 2 ^ (32 - 24) * 2 ^ (32 - 24) + 2 ^ (32 - 24) - 1) ∧
        (get_ip_type 10 24 = "HOST" ↔
          ((10 : Nat) ≠ 10 / 2 ^ (32 - 24) * 2 ^ (32 - 24) ∧
           (10 : Nat) ≠ 10 / 2 ^ (32 - 24) * 2 ^ (32 - 24) + 2 ^ (32 - 24) - 1))))) :=
  ⟨⟨by norm_num, by norm_num, by norm_num⟩,
    get_ip_type_spec 10 24 (by norm_num) (by norm_num) (by norm_num)⟩

lemma get_ip_type_in_block (c B x : Nat) (hc : c ≤ 30) (h1 : B * 2 ^ (32 - c) ≤ x)
    (h2 : x < B * 2 ^ (32 - c) + 2 ^ (32 - c)) :
    (get_ip_type x c = "NTWRK" ↔ x = B * 2 ^ (32 - c)) ∧
    (get_ip_type x c = "BCAST" ↔ x = B * 2 ^ (32 - c) + 2 ^ (32 - c) - 1) ∧
    (get_ip_type x c = "HOST" ↔
      (x ≠ B * 2 ^ (32 - c) ∧ x ≠ B * 2 ^ (32 - c) + 2 ^ (32 - c) - 1)) := by
  have hK : 4 ≤ 2 ^ (32 - c) := pow_block_ge_four c hc
  have hdiv : x / 2 ^ (32 - c) = B :=
    Nat.div_eq_of_lt_le h1 (by rw [Nat.succ_mul]; exact h2)
  have hdm := Nat.div_add_mod x (2 ^ (32 - c))
  rw [hdiv, Nat.mul_comm] at hdm
  have hmlt : x % 2 ^ (32 - c) < 2 ^ (32 - c) := Nat.mod_lt _ (by omega)
  rw [get_ip_type_char x c hc]
  split_ifs with hx1 hx2 <;>
    refine ⟨⟨fun hs => ?_, fun hx => ?_⟩, ⟨fun hs => ?_, fun hx => ?_⟩,
      ⟨fun hs => ?_, fun hx => ?_⟩⟩ <;>
    first
      | rfl
      | omega
      | exact absurd hs (by decide)

lemma countP_range'_eq_single (s k v : Nat) (p : Nat → Bool)
    (hp : ∀ x, s ≤ x → x < s + k → (p x = true ↔ x = v))
    (hv1 : s ≤ v) (hv2 : v < s + k) :
    (List.range' s k).countP p = 1 := by
  have h1 : (List.range' s k).countP p = (List.range' s k).count v := by
    rw [List.count_eq_countP]
    refine List.countP_congr fun x hx => ?_
    have hm := List.mem_range'_1.mp hx
    simpa [beq_iff_eq] using hp x hm.1 hm.2
  rw [h1]
  exact List.count_eq_one_of_mem (List.nodup_range' _ _) (List.mem_range'_1.mpr ⟨hv1, hv2⟩)

/-- C6: for every prefix length in `[8, 30]` and block index `B`,
classification over the block `[B*2^(32-c), (B+1)*2^(32-c))` assigns
NTWRK to exactly one address (the block base), BCAST to exactly one (the
block top), and HOST to every other address of the block. -/
theorem block_classification_spec (c B a : Nat) (hc8 : 8 ≤ c) (hc30 : c ≤ 30)
    (hB : B < 2 ^ c) (ha1 : B * 2 ^ (32 - c) ≤ a)
    (ha2 : a < B * 2 ^ (32 - c) + 2 ^ (32 - c)) :
    (List.range' (B * 2 ^ (32 - c)) (2 ^ (32 - c))).countP
      (fun x => get_ip_type x c == "NTWRK") = 1 ∧
    (List.range' (B * 2 ^ (32 - c)) (2 ^ (32 - c))).countP
      (fun x => get_ip_type x c == "BCAST") = 1 ∧
    (get_ip_type a c = "NTWRK" ↔ a = B * 2 ^ (32 - c)) ∧
    (get_ip_type a c = "BCAST" ↔ a = B * 2 ^ (32 - c) + 2 ^ (32 - c) - 1) ∧
    (a ≠ B * 2 ^ (32 - c) → a ≠ B * 2 ^ (32 - c) + 2 ^ (32 - c) - 1 →
      get_ip_type a c = "HOST") := by
  have hK : 4 ≤ 2 ^ (32 - c) := pow_block_ge_four c hc30
  have hblock := get_ip_type_in_block c B a hc30 ha1 ha2
  refine ⟨?_, ?_, hblock.1, hblock.2.1, fun hne1 hne2 => (hblock.2.2).mpr ⟨hne1, hne2⟩⟩
  · refine countP_range'_eq_single _ _ (B * 2 ^ (32 - c)) _ (fun x hx1 hx2 => ?_)
      (le_refl _) (by omega)
    have h := (get_ip_type_in_block c B x hc30 hx1 hx2).1
    simpa [beq_iff_eq] using h
  · refine countP_range'_eq_single _ _ (B * 2 ^ (32 - c) + 2 ^ (32 - c) - 1) _
      (fun x hx1 hx2 => ?_) (by omega) (by omega)
    have h := (get_ip_type_in_block c B x hc30 hx1 hx2).2.1
    simpa [beq_iff_eq] using h

/-- C6 witness: the theorem instantiated at prefix 24, block 0,
address 5. -/
theorem block_classification_spec_witness :
    ((8 : Nat) ≤ 24 ∧ (24 : Nat) ≤ 30 ∧ (0 : Nat) < 2 ^ 24 ∧
      0 * 2 ^ (32 - 24) ≤ 5 ∧ (5 : Nat) < 0 * 2 ^ (32 - 24) + 2 ^ (32 - 24)) ∧
    ((List.range' (0 * 2 ^ (32 - 24)) (2 ^ (32 - 24))).countP
      (fun x => get_ip_type x 24 == "NTWRK") = 1 ∧
    (List.range' (0 * 2 ^ (32 - 24)) (2 ^ (32 - 24))).countP
      (fun x => get_ip_type x 24 == "BCAST") = 1 ∧
    (get_ip_type 5 24 = "NTWRK" ↔ (5 : Nat) = 0 * 2 ^ (32 - 24)) ∧
    (get_ip_type 5 24 = "BCAST" ↔ (5 : Nat) = 0 * 2 ^ (32 - 24) + 2 ^ (32 - 24) - 1) ∧
    ((5 : Nat) ≠ 0 * 2 ^ (32 - 24) → (5 : Nat) ≠ 0 * 2 ^ (32 - 24) + 2 ^ (32 - 24) - 1 →
      get_ip_type 5 24 = "HOST")) :=
  ⟨⟨by norm_num, by norm_num, by norm_num, by norm_num, by norm_num⟩,
    block_classification_spec 24 0 5 (by norm_num) (by norm_num) (by norm_num)
      (by norm_num) (by norm_num)⟩

lemma generate_ip_list_eq_genLoop (start : List Char) (a n c : Nat) (L : List IPEntry)
    (hstart : ip_to_int start = some ((a : Nat) : Int))
    (hL : generate_ip_list start n c = some L) :
    genLoop (2 ^ 32 + 1) n c a 0 = L := by
  unfold generate_ip_list at hL
  rw [hstart] at hL
  simp only [Option.map_some', Int.toNat_natCast, Option.some.injEq] at hL
  exact hL

/-- C1: for every valid start address, desired host count at least 1 and
prefix length in `[8, 32]`, `generate_ip_list` succeeds and returns
exactly the contiguous upward walk from the start address (each visited
address paired with its classification), never walking past
`0xFFFFFFFF`; the entries' address values are the strictly increasing
consecutive integers of that walk, and the number of HOST-classified
entries is `min` of the request and the HOST addresses available before
overflow (NTWRK/BCAST entries are present but never counted). -/
theorem generate_ip_list_spec (start : List Char) (a n c : Nat) (L : List IPEntry)
    (hstart : ip_to_int start = some ((a : Nat) : Int)) (ha : a ≤ 0xFFFFFFFF)
    (hn : 1 ≤ n) (hc8 : 8 ≤ c) (hc32 : c ≤ 32)
    (hL : generate_ip_list start n c = some L) :
    L = (List.range' a L.length).map (mkEntry c) ∧
    a + L.length ≤ 2 ^ 32 ∧
    L.map (fun e => ip_to_int e.ip) =
      (List.range' a L.length).map (fun x => some ((x : Nat) : Int)) ∧
    L.countP (fun e => e.type == "HOST") = min n (hostsAvailable a c) ∧
    List.Pairwise addrLt L := by
  have hL' := generate_ip_list_eq_genLoop start a n c L hstart hL
  obtain ⟨k, hk, hb⟩ := genLoop_eq_map (2 ^ 32 + 1) n c a 0 (by omega)
  rw [hL'] at hk
  have hbb : a + k ≤ 2 ^ 32 := hb (by omega)
  have hlen : L.length = k := by rw [hk, List.length_map, List.length_range']
  have hcnt : L.countP (fun e => e.type == "HOST") = min n (hostsAvailable a c) := by
    rw [← hL']
    have h := genLoop_countP (2 ^ 32 + 1) n c a 0 (by omega)
    simpa using h
  refine ⟨?_, ?_, ?_, hcnt, ?_⟩
  · rw [hlen]; exact hk
  · rw [hlen]; exact hbb
  · rw [hlen, hk, List.map_map]
    refine List.map_congr_left fun x hx => ?_
    have hm := List.mem_range'_1.mp hx
    exact ip_to_int_int_to_ip x (by omega)
  · rw [hk, List.pairwise_map]
    refine List.Pairwise.imp_of_mem ?_ (List.pairwise_lt_range' a k)
    intro x y hx hy hlt
    have hxm := List.mem_range'_1.mp hx
    have hym := List.mem_range'_1.mp hy
    exact ⟨(x : Int), (y : Int), ip_to_int_int_to_ip x (by omega),
      ip_to_int_int_to_ip y (by omega), by exact_mod_cast hlt⟩

/-- C1 witness: the theorem instantiated at start 255.255.255.250,
2 requested hosts, prefix 24 (the returned list is the two HOST
entries .250 and .251). -/
theorem generate_ip_list_spec_witness :
    (ip_to_int ("255.255.255.250".toList) = some ((4294967290 : Nat) : Int) ∧
      (4294967290 : Nat) ≤ 0xFFFFFFFF ∧ (1 : Nat) ≤ 2 ∧ (8 : Nat) ≤ 24 ∧ (24 : Nat) ≤ 32 ∧
      generate_ip_list ("255.255.255.250".toList) 2 24 =
        some [⟨"255.255.255.250".toList, "HOST"⟩, ⟨"255.255.255.251".toList, "HOST"⟩]) ∧
    ([⟨"255.255.255.250".toList, "HOST"⟩, ⟨"255.255.255.251".toList, "HOST"⟩] =
        (List.range' 4294967290
          ([(⟨"255.255.255.250".toList, "HOST"⟩ : IPEntry),
            ⟨"255.255.255.251".toList, "HOST"⟩].length)).map (mkEntry 24) ∧
      4294967290 +
        ([(⟨"255.255.255.250".toList, "HOST"⟩ : IPEntry),
          ⟨"255.255.255.251".toList, "HOST"⟩].length) ≤ 2 ^ 32 ∧
      [(⟨"255.255.255.250".toList, "HOST"⟩ : IPEntry),
          ⟨"255.255.255.251".toList, "HOST"⟩].map (fun e => ip_to_int e.ip) =
        (List.range' 4294967290
          ([(⟨"255.255.255.250".toList, "HOST"⟩ : IPEntry),
            ⟨"255.255.255.251".toList, "HOST"⟩].length)).map (fun x => some ((x : Nat) : Int)) ∧
      [(⟨"255.255.255.250".toList, "HOST"⟩ : IPEntry),
          ⟨"255.255.255.251".toList, "HOST"⟩].countP (fun e => e.type == "HOST") =
        min 2 (hostsAvailable 4294967290 24) ∧
      List.Pairwise addrLt
        [(⟨"255.255.255.250".toList, "HOST"⟩ : IPEntry),
          ⟨"255.255.255.251".toList, "HOST"⟩]) :=
  ⟨⟨by decide, by decide, by decide, by decide, by decide, by decide⟩,
    generate_ip_list_spec ("255.255.255.250".toList) 4294967290 2 24 _
      (by decide) (by decide) (by decide) (by decide) (by decide) (by decide)⟩

/-- C10: whenever the enumeration reaches the requested host count (the
walk is not truncated by the overflow guard), the final entry of the
returned list is HOST-classified. -/
theorem generate_ip_list_last_host_spec (start : List Char) (a n c : Nat) (L : List IPEntry)
    (hstart : ip_to_int start = some ((a : Nat) : Int)) (ha : a ≤ 0xFFFFFFFF)
    (hn : 1 ≤ n) (hc8 : 8 ≤ c) (hc32 : c ≤ 32)
    (hav : n ≤ hostsAvailable a c)
    (hL : generate_ip_list start n c = some L) :
    L.getLast?.map (fun e => e.type) = some "HOST" := by
  have hL' := generate_ip_list_eq_genLoop start a n c L hstart hL
  obtain ⟨e, he, het⟩ := genLoop_getLast (2 ^ 32 + 1) n c a 0 (by omega) (by omega) (by omega)
  rw [hL'] at he
  rw [he, Option.map_some', het]

/-- C10 witness: the theorem instantiated at start 255.255.255.252, 3
requested hosts, prefix 24 (exactly 3 HOST addresses remain below the
overflow guard, and the walk ends on the HOST entry 255.255.255.254). -/
theorem generate_ip_list_last_host_spec_witness :
    (ip_to_int ("255.255.255.252".toList) = some ((4294967292 : Nat) : Int) ∧
      (4294967292 : Nat) ≤ 0xFFFFFFFF ∧ (1 : Nat) ≤ 3 ∧ (8 : Nat) ≤ 24 ∧ (24 : Nat) ≤ 32 ∧
      (3 : Nat) ≤ hostsAvailable 4294967292 24 ∧
      generate_ip_list ("255.255.255.252".toList) 3 24 =
        some [⟨"255.255.255.252".toList, "HOST"⟩, ⟨"255.255.255.253".toList, "HOST"⟩,
          ⟨"255.255.255.254".toList, "HOST"⟩]) ∧
    ([(⟨"255.255.255.252".toList, "HOST"⟩ : IPEntry), ⟨"255.255.255.253".toList, "HOST"⟩,
        ⟨"255.255.255.254".toList, "HOST"⟩].getLast?.map (fun e => e.type) = some "HOST") :=
  ⟨⟨by decide, by decide, by decide, by decide, by decide, by decide, by decide⟩,
    generate_ip_list_last_host_spec ("255.255.255.252".toList) 4294967292 3 24 _
      (by decide) (by decide) (by decide) (by decide) (by decide) (by decide) (by decide)⟩

/-- C3: the two reference enumerations.  `generate_ip_list "10.0.0.0" 5 24`
returns exactly the six entries `10.0.0.0:NTWRK` then `10.0.0.1`
through `10.0.0.5` as HOST, and `generate_ip_list "192.168.1.254" 3 24`
returns exactly the five entries `192.168.1.254:HOST`,
`192.168.1.255:BCAST`, `192.168.2.0:NTWRK`, `192.168.2.1:HOST`,
`192.168.2.2:HOST`, in those orders. -/
theorem generate_ip_list_examples :
    generate_ip_list ("10.0.0.0".toList) 5 24 =
      some [⟨"10.0.0.0".toList, "NTWRK"⟩, ⟨"10.0.0.1".toList, "HOST"⟩,
        ⟨"10.0.0.2".toList, "HOST"⟩, ⟨"10.0.0.3".toList, "HOST"⟩,
        ⟨"10.0.0.4".toList, "HOST"⟩, ⟨"10.0.0.5".toList, "HOST"⟩] ∧
    generate_ip_list ("192.168.1.254".toList) 3 24 =
      some [⟨"192.168.1.254".toList, "HOST"⟩, ⟨"192.168.1.255".toList, "BCAST"⟩,
        ⟨"192.168.2.0".toList, "NTWRK"⟩, ⟨"192.168.2.1".toList, "HOST"⟩,
        ⟨"192.168.2.2".toList, "HOST"⟩] := by
  constructor <;> decide

/-- C7: for a NTWRK- or BCAST-role entry, `scan_host` synthesizes the
result record directly: its status is the entry's role marker (the
spec's NOT_APPLICABLE — never UP, never DOWN), its hostname is the
absent marker `"-"`, and the result does not depend on the ping or DNS
oracles at all (no probe and no resolution is performed). -/
theorem scan_host_network_broadcast_spec
    (pingO pingO' : List Char → PingOutcome) (dnsO dnsO' : List Char → DnsOutcome)
    (e : IPEntry) (he : e.type = "NTWRK" ∨ e.type = "BCAST") :
    scan_host pingO dnsO e = { ip := e.ip, status := e.type, hostname := "-" } ∧
    (scan_host pingO dnsO e).status ≠ "UP" ∧
    (scan_host pingO dnsO e).status ≠ "DOWN" ∧
    (scan_host pingO dnsO e).hostname = "-" ∧
    scan_host pingO dnsO e = scan_host pingO' dnsO' e := by
  have hstep : scan_host pingO dnsO e = { ip := e.ip, status := e.type, hostname := "-" } := by
    unfold scan_host
    rw [if_pos he]
  have hstep' : scan_host pingO' dnsO' e = { ip := e.ip, status := e.type, hostname := "-" } := by
    unfold scan_host
    rw [if_pos he]
  refine ⟨hstep, ?_, ?_, by rw [hstep], by rw [hstep, hstep']⟩
  · rw [hstep]
    rcases he with h | h <;> simp [h]
  · rw [hstep]
    rcases he with h | h <;> simp [h]

/-- C7 witness: the theorem instantiated at the entry 10.0.0.0:NTWRK
with two distinct oracle pairs. -/
theorem scan_host_network_broadcast_spec_witness :
    ((⟨"10.0.0.0".toList, "NTWRK"⟩ : IPEntry).type = "NTWRK" ∨
      (⟨"10.0.0.0".toList, "NTWRK"⟩ : IPEntry).type = "BCAST") ∧
    (scan_host (fun _ => PingOutcome.completed 0) (fun _ => DnsOutcome.resolved "x")
        ⟨"10.0.0.0".toList, "NTWRK"⟩ =
      { ip := "10.0.0.0".toList, status := "NTWRK", hostname := "-" } ∧
    (scan_host (fun _ => PingOutcome.completed 0) (fun _ => DnsOutcome.resolved "x")
        ⟨"10.0.0.0".toList, "NTWRK"⟩).status ≠ "UP" ∧
    (scan_host (fun _ => PingOutcome.completed 0) (fun _ => DnsOutcome.resolved "x")
        ⟨"10.0.0.0".toList, "NTWRK"⟩).status ≠ "DOWN" ∧
    (scan_host (fun _ => PingOutcome.completed 0) (fun _ => DnsOutcome.resolved "x")
        ⟨"10.0.0.0".toList, "NTWRK"⟩).hostname = "-" ∧
    scan_host (fun _ => PingOutcome.completed 0) (fun _ => DnsOutcome.resolved "x")
        ⟨"10.0.0.0".toList, "NTWRK"⟩ =
      scan_host (fun _ => PingOutcome.raised) (fun _ => DnsOutcome.raised)
        ⟨"10.0.0.0".toList, "NTWRK"⟩) :=
  ⟨Or.inl rfl,
    scan_host_network_broadcast_spec (fun _ => PingOutcome.completed 0)
      (fun _ => PingOutcome.raised) (fun _ => DnsOutcome.resolved "x")
      (fun _ => DnsOutcome.raised) ⟨"10.0.0.0".toList, "NTWRK"⟩ (Or.inl rfl)⟩

/-- C9: for a HOST-role entry, `scan_host` never propagates a failure of
the ping or the reverse-DNS call: its status is always UP or DOWN, UP
exactly when the ping subprocess completed with return code 0, DOWN on
any ping exception, and the hostname degrades to the absent marker `"-"`
on a `socket.herror` or any other resolver exception. -/
theorem scan_host_failure_downgrade_spec
    (pingO : List Char → PingOutcome) (dnsO : List Char → DnsOutcome) (e : IPEntry)
    (hnt : e.type ≠ "NTWRK") (hbc : e.type ≠ "BCAST")
    (po : PingOutcome) (dn : DnsOutcome)
    (hp : pingO e.ip = po) (hd : dnsO e.ip = dn) (r : ProbeResult)
    (hr : r = scan_host pingO dnsO e) :
    (r.status = "UP" ∨ r.status = "DOWN") ∧
    (r.status = "UP" ↔ po = PingOutcome.completed 0) ∧
    (po = PingOutcome.raised → r.status = "DOWN") ∧
    (dn = DnsOutcome.herror → r.hostname = "-") ∧
    (dn = DnsOutcome.raised → r.hostname = "-") ∧
    r.hostname = get_hostname dn := by
  subst hr
  have hneg : ¬ (e.type = "NTWRK" ∨ e.type = "BCAST") := fun h => h.elim hnt hbc
  have hs : scan_host pingO dnsO e =
      { ip := e.ip, status := if ping_host (pingO e.ip) then "UP" else "DOWN",
        hostname := get_hostname (dnsO e.ip) } := by
    unfold scan_host
    rw [if_neg hneg]
  rw [hs, hp, hd]
  refine ⟨?_, ?_, ?_, ?_, ?_, rfl⟩
  · cases hb : ping_host po <;> simp
  · cases po with
    | completed rc =>
      by_cases hrc : rc = 0
      · subst hrc; simp [ping_host]
      · simp [ping_host, hrc]
    | raised => simp [ping_host]
  · intro h; rw [h]; simp [ping_host]
  · intro h; rw [h]; rfl
  · intro h; rw [h]; rfl

/-- C9 witness: the theorem instantiated at a HOST entry whose ping and
DNS calls both raise; the result is DOWN with absent hostname. -/
theorem scan_host_failure_downgrade_spec_witness :
    ((⟨"10.0.0.1".toList, "HOST"⟩ : IPEntry).type ≠ "NTWRK" ∧
      (⟨"10.0.0.1".toList, "HOST"⟩ : IPEntry).type ≠ "BCAST") ∧
    (((⟨"10.0.0.1".toList, "DOWN", "-"⟩ : ProbeResult).status = "UP" ∨
        (⟨"10.0.0.1".toList, "DOWN", "-"⟩ : ProbeResult).status = "DOWN") ∧
      ((⟨"10.0.0.1".toList, "DOWN", "-"⟩ : ProbeResult).status = "UP" ↔
        PingOutcome.raised = PingOutcome.completed 0) ∧
      (PingOutcome.raised = PingOutcome.raised →
        (⟨"10.0.0.1".toList, "DOWN", "-"⟩ : ProbeResult).status = "DOWN") ∧
      (DnsOutcome.raised = DnsOutcome.herror →
        (⟨"10.0.0.1".toList, "DOWN", "-"⟩ : ProbeResult).hostname = "-") ∧
      (DnsOutcome.raised = DnsOutcome.raised →
        (⟨"10.0.0.1".toList, "DOWN", "-"⟩ : ProbeResult).hostname = "-") ∧
      (⟨"10.0.0.1".toList, "DOWN", "-"⟩ : ProbeResult).hostname =
        get_hostname DnsOutcome.raised) :=
  ⟨⟨by decide, by decide⟩,
    scan_host_failure_downgrade_spec (fun _ => PingOutcome.raised)
      (fun _ => DnsOutcome.raised) ⟨"10.0.0.1".toList, "HOST"⟩
      (by decide) (by decide) PingOutcome.raised DnsOutcome.raised rfl rfl
      ⟨"10.0.0.1".toList, "DOWN", "-"⟩ (by decide)⟩

/-- C4 counterexample: `ip_to_int` does not fail on every invalid dotted
quad.  The five-part string "1.2.3.4.5" is invalid (the program's own
validation `valid_ip` rejects it), yet `ip_to_int` silently ignores the
fifth part and returns the packed value of 1.2.3.4; likewise the
out-of-range octet of "256.0.0.0" is not rejected and yields a value
beyond `2^32 - 1`. -/
theorem ip_to_int_extra_parts_counterexample :
    (splitDot ("1.2.3.4.5".toList)).length = 5 ∧
    valid_ip ("1.2.3.4.5".toList) = false ∧
    ip_to_int ("1.2.3.4.5".toList) = some 16909060 ∧
    valid_ip ("256.0.0.0".toList) = false ∧
    ip_to_int ("256.0.0.0".toList) = some 4294967296 :=
  ⟨by decide, by decide, by decide, by decide, by decide⟩

/-- C4 (amended): `ip_to_int` raises exactly when its input has fewer
than four dot-separated parts or one of the first four parts is not an
integer; parts beyond the fourth are ignored and octet values are not
range-checked.  The exactly-four-parts and `[0,255]` range check of the
claim is instead performed by the input-validation routine
(`valid_ip`, from `get_user_input`), and every input passing that
validation is encoded by `ip_to_int` without error. -/
theorem ip_to_int_failure_spec (s : List Char) :
    (ip_to_int s = none ↔
      ((splitDot s).length < 4 ∨ ∃ p ∈ (splitDot s).take 4, pyInt p = none)) ∧
    (valid_ip s = true ↔
      ((splitDot s).length = 4 ∧
        ∀ p ∈ splitDot s, ∃ n : Int, pyInt p = some n ∧ 0 ≤ n ∧ n ≤ 255)) ∧
    (valid_ip s = true → ∃ n : Int, ip_to_int s = some n) :=
  ⟨ip_to_int_eq_none_iff s, valid_ip_iff s, valid_ip_encodes s⟩

/-- C5 counterexample: decode-after-encode is not the identity on every
dotted quad the program accepts as valid.  "0.0.0.00" passes the
program's own validation (four dot-separated parts, each an integer in
`[0,255]`), but encoding and then decoding yields "0.0.0.0", a
different string: the non-canonical leading-zero octet is lost. -/
theorem roundtrip_leading_zeros_counterexample :
    valid_ip ("0.0.0.00".toList) = true ∧
    (ip_to_int ("0.0.0.00".toList)).map (fun n => int_to_ip n.toNat) =
      some ("0.0.0.0".toList) ∧
    ("0.0.0.0".toList : List Char) ≠ "0.0.0.00".toList :=
  ⟨by decide, by decide, by decide⟩

/-- C5 (amended): on canonical dotted quads — each octet written as the
canonical decimal numeral with no sign and no leading zeros, exactly the
textual form `int_to_ip` produces — decoding after encoding is the
identity, and for every address value in `[0, 2^32-1]` encoding after
decoding is the identity. -/
theorem codec_roundtrip (s : List Char) (a : Nat) (hs : isCanonicalQuad s = true)
    (ha : a ≤ 2 ^ 32 - 1) :
    (ip_to_int s).map (fun n => int_to_ip n.toNat) = some s ∧
    ip_to_int (int_to_ip a) = some ((a : Nat) : Int) :=
  ⟨decode_encode_canonical s hs, ip_to_int_int_to_ip a (by omega)⟩

/-- C5 witness: the amended round-trip theorem instantiated at
"10.0.0.7" and at the top address `2^32 - 1`. -/
theorem codec_roundtrip_witness :
    (isCanonicalQuad ("10.0.0.7".toList) = true ∧ (4294967295 : Nat) ≤ 2 ^ 32 - 1) ∧
    ((ip_to_int ("10.0.0.7".toList)).map (fun n => int_to_ip n.toNat) =
        some ("10.0.0.7".toList) ∧
      ip_to_int (int_to_ip 4294967295) = some ((4294967295 : Nat) : Int)) :=
  ⟨⟨by decide, by decide⟩,
    codec_roundtrip ("10.0.0.7".toList) 4294967295 (by decide) (by decide)⟩

lemma lexLe_cons (a b : Int) (xs ys : List Int) :
    lexLe (a :: xs) (b :: ys) = true ↔ (a < b ∨ (a = b ∧ lexLe xs ys = true)) := by
  simp only [lexLe]
  split_ifs with h1 h2
  · simp [h1]
  · constructor
    · intro hx
      exact absurd hx (by simp)
    · intro hx
      rcases hx with h | ⟨he, -⟩
      · omega
      · omega
  · have hab : a = b := by omega
    subst hab
    simp

lemma lexLe_trans : ∀ x y z : List Int,
    lexLe x y = true → lexLe y z = true → lexLe x z = true := by
  intro x
  induction x with
  | nil => intro y z _ _; rfl
  | cons a xs ih =>
    intro y z hxy hyz
    cases y with
    | nil => exact absurd hxy (by simp [lexLe])
    | cons b ys =>
      cases z with
      | nil => exact absurd hyz (by simp [lexLe])
      | cons d zs =>
        rw [lexLe_cons] at hxy hyz ⊢
        rcases hxy with h1 | ⟨e1, t1⟩ <;> rcases hyz with h2 | ⟨e2, t2⟩
        · exact Or.inl (by omega)
        · exact Or.inl (by omega)
        · exact Or.inl (by omega)
        · exact Or.inr ⟨by omega, ih ys zs t1 t2⟩

lemma lexLe_total : ∀ x y : List Int, lexLe x y = true ∨ lexLe y x = true := by
  intro x
  induction x with
  | nil => intro y; exact Or.inl rfl
  | cons a xs ih =>
    intro y
    cases y with
    | nil => exact Or.inr rfl
    | cons b ys =>
      rcases lt_trichotomy a b with h | h | h
      · exact Or.inl (by rw [lexLe_cons]; exact Or.inl h)
      · subst h
        rcases ih ys with ht | ht
        · exact Or.inl (by rw [lexLe_cons]; exact Or.inr ⟨rfl, ht⟩)
        · exact Or.inr (by rw [lexLe_cons]; exact Or.inr ⟨rfl, ht⟩)
      · exact Or.inr (by rw [lexLe_cons]; exact Or.inl h)

lemma ipKey_int_to_ip (a : Nat) :
    ipKey (int_to_ip a) =
      [((a / 16777216 % 256 : Nat) : Int), ((a / 65536 % 256 : Nat) : Int),
        ((a / 256 % 256 : Nat) : Int), ((a % 256 : Nat) : Int)] := by
  have h0 : a / 16777216 % 256 ≤ 255 := by omega
  have h1 : a / 65536 % 256 ≤ 255 := by omega
  have h2 : a / 256 % 256 ≤ 255 := by omega
  have h3 : a % 256 ≤ 255 := by omega
  unfold ipKey
  rw [int_to_ip_eq]
  rw [splitDot_append _ _ (dot_not_mem_toString_octet _ h0),
    splitDot_append _ _ (dot_not_mem_toString_octet _ h1),
    splitDot_append _ _ (dot_not_mem_toString_octet _ h2),
    splitDot_no_dot _ (dot_not_mem_toString_octet _ h3)]
  simp only [List.map_cons, List.map_nil, pyInt_toString_octet _ h0,
    pyInt_toString_octet _ h1, pyInt_toString_octet _ h2,
    pyInt_toString_octet _ h3, Option.getD_some]

lemma lexLe_int_to_ip_iff (a b : Nat) (ha : a < 2 ^ 32) (hb : b < 2 ^ 32) :
    lexLe (ipKey (int_to_ip a)) (ipKey (int_to_ip b)) = true ↔ a ≤ b := by
  rw [ipKey_int_to_ip a, ipKey_int_to_ip b]
  simp only [lexLe_cons, lexLe, Nat.cast_inj, Nat.cast_lt, and_true]
  split_ifs <;> simp <;> omega

lemma scan_host_ip (pingO : List Char → PingOutcome) (dnsO : List Char → DnsOutcome)
    (e : IPEntry) : (scan_host pingO dnsO e).ip = e.ip := by
  unfold scan_host
  split <;> rfl

/-- C8: the final result sequence contains exactly one result per input
entry and is sorted strictly ascending by the numeric 32-bit address
value, regardless of the order in which the individual probes completed
(the completion order is an arbitrary permutation of the submissions).
The hypotheses state that the entries carry the textual addresses
produced by `int_to_ip` for pairwise distinct address values, which is
how the enumerator builds every entry sequence the engine receives. -/
theorem results_sorted_spec (pingO : List Char → PingOutcome)
    (dnsO : List Char → DnsOutcome) (ips : List IPEntry) (addrs : List Nat)
    (hne : ips ≠ [])
    (haddr : ips.map (fun e => e.ip) = addrs.map int_to_ip)
    (hbound : ∀ x ∈ addrs, x < 2 ^ 32)
    (hnodup : addrs.Nodup)
    (completed : List ProbeResult)
    (hperm : completed.Perm (ips.map (scan_host pingO dnsO))) :
    (sortResults completed).length = ips.length ∧
    List.Pairwise resLt (sortResults completed) := by
  have hperm2 : (sortResults completed).Perm (ips.map (scan_host pingO dnsO)) := by
    unfold sortResults
    exact (List.mergeSort_perm completed _).trans hperm
  constructor
  · rw [hperm2.length_eq, List.length_map]
  · have hmem : ∀ r ∈ sortResults completed, ∃ x ∈ addrs, r.ip = int_to_ip x := by
      intro r hr
      have hr2 : r ∈ ips.map (scan_host pingO dnsO) := hperm2.mem_iff.mp hr
      obtain ⟨e, he, rfl⟩ := List.mem_map.mp hr2
      have hip : e.ip ∈ ips.map (fun e => e.ip) := List.mem_map_of_mem _ he
      rw [haddr] at hip
      obtain ⟨x, hx, hxe⟩ := List.mem_map.mp hip
      exact ⟨x, hx, by rw [scan_host_ip]; exact hxe.symm⟩
    have hsorted : List.Pairwise
        (fun r1 r2 => lexLe (ipKey r1.ip) (ipKey r2.ip) = true) (sortResults completed) := by
      unfold sortResults
      exact @List.sorted_mergeSort ProbeResult
        (fun r1 r2 => lexLe (ipKey r1.ip) (ipKey r2.ip))
        (fun r1 r2 r3 h12 h23 => lexLe_trans _ _ _ h12 h23)
        (fun r1 r2 => by
          rcases lexLe_total (ipKey r1.ip) (ipKey r2.ip) with h | h <;> simp [h])
        completed
    have hmapnd : ((sortResults completed).map (fun r => r.ip)).Nodup := by
      have h1 : (ips.map (scan_host pingO dnsO)).map (fun r => r.ip) =
          addrs.map int_to_ip := by
        rw [List.map_map]
        have hcomp : ips.map ((fun r => r.ip) ∘ scan_host pingO dnsO) =
            ips.map (fun e => e.ip) :=
          List.map_congr_left fun e _ => scan_host_ip _ _ _
        rw [hcomp, haddr]
      have h2 : (addrs.map int_to_ip).Nodup := by
        refine List.Nodup.map_on ?_ hnodup
        intro x hx y hy hxy
        have hxe := ip_to_int_int_to_ip x (hbound x hx)
        rw [hxy, ip_to_int_int_to_ip y (hbound y hy)] at hxe
        simpa using hxe.symm
      have h3 : ((sortResults completed).map (fun r => r.ip)).Perm (addrs.map int_to_ip) :=
        h1 ▸ hperm2.map (fun r => r.ip)
      exact h3.symm.nodup h2
    have hpair_ne : List.Pairwise (fun r1 r2 => r1.ip ≠ r2.ip) (sortResults completed) :=
      List.pairwise_map.mp hmapnd
    refine List.Pairwise.imp_of_mem ?_ (hsorted.and hpair_ne)
    intro r1 r2 h1 h2 hcomb
    obtain ⟨hle, hne2⟩ := hcomb
    obtain ⟨x, hx, hxip⟩ := hmem r1 h1
    obtain ⟨y, hy, hyip⟩ := hmem r2 h2
    have hxle : x ≤ y := by
      rw [hxip, hyip] at hle
      exact (lexLe_int_to_ip_iff x y (hbound x hx) (hbound y hy)).mp hle
    have hxy : x ≠ y := fun heq => hne2 (by rw [hxip, hyip, heq])
    exact ⟨(x : Int), (y : Int), by rw [hxip]; exact ip_to_int_int_to_ip x (hbound x hx),
      by rw [hyip]; exact ip_to_int_int_to_ip y (hbound y hy),
      by exact_mod_cast lt_of_le_of_ne hxle hxy⟩

/-- C8 witness: a two-entry scan whose probes complete in reverse
order; the sorted result list still has one result per entry, ascending
by address. -/
theorem results_sorted_spec_witness :
    (([⟨"10.0.0.1".toList, "HOST"⟩, ⟨"10.0.0.0".toList, "NTWRK"⟩] : List IPEntry) ≠ [] ∧
      ([⟨"10.0.0.1".toList, "HOST"⟩, ⟨"10.0.0.0".toList, "NTWRK"⟩] : List IPEntry).map
          (fun e => e.ip) = [167772161, 167772160].map int_to_ip ∧
      (∀ x ∈ [167772161, 167772160], x < 2 ^ 32) ∧
      ([167772161, 167772160] : List Nat).Nodup ∧
      ([⟨"10.0.0.0".toList, "NTWRK", "-"⟩, ⟨"10.0.0.1".toList, "DOWN", "-"⟩] :
          List ProbeResult).Perm
        (([⟨"10.0.0.1".toList, "HOST"⟩, ⟨"10.0.0.0".toList, "NTWRK"⟩] : List IPEntry).map
          (scan_host (fun _ => PingOutcome.raised) (fun _ => DnsOutcome.raised)))) ∧
    ((sortResults [⟨"10.0.0.0".toList, "NTWRK", "-"⟩,
        ⟨"10.0.0.1".toList, "DOWN", "-"⟩]).length =
      ([⟨"10.0.0.1".toList, "HOST"⟩, ⟨"10.0.0.0".toList, "NTWRK"⟩] : List IPEntry).length ∧
    List.Pairwise resLt
      (sortResults [⟨"10.0.0.0".toList, "NTWRK", "-"⟩, ⟨"10.0.0.1".toList, "DOWN", "-"⟩])) :=
  ⟨⟨by decide, by decide, by decide, by decide, by decide⟩,
    results_sorted_spec (fun _ => PingOutcome.raised) (fun _ => DnsOutcome.raised)
      [⟨"10.0.0.1".toList, "HOST"⟩, ⟨"10.0.0.0".toList, "NTWRK"⟩] [167772161, 167772160]
      (by decide) (by decide) (by decide) (by decide)
      [⟨"10.0.0.0".toList, "NTWRK", "-"⟩, ⟨"10.0.0.1".toList, "DOWN", "-"⟩] (by decide)⟩

end ScanNetwork
